import Mathlib

/-!
# Verification of the zk-lab threshold BLS / Shamir secret-sharing demos

This file gives a shallow embedding of the two core programs of the
repository, `src/bls_shamir/src/main.rs` and `src/dkg/src/main.rs`, and
proves (or refutes) the claims of the specification about them.

## Modelling conventions

* **Curve groups by discrete logarithm.**  The BLS12-381 scalar field and the
  three groups (`G1`, `G2`, the pairing target) are cyclic of the same prime
  order, and the spec treats the curve library as an opaque external
  collaborator.  We therefore model every group element by its discrete
  logarithm with respect to the group's generator: a group element is an
  element of a commutative ring `F` standing for the scalar field (theorems
  that need inverses or absence of zero divisors assume `Field F`).  Under
  this representation: the generator is `1`, point addition is `+`, negation
  is `-`, scalar multiplication `P * Scalar::from(n)` is `dlog P * (n : F)`,
  and the pairing `e(aG, bH)` is the product `a * b` (the discrete log of the
  pairing value in the target group).  The hash-to-curve point `M` of the
  message is an arbitrary parameter `m : F`.

* **Machine integers.**  Rust `u64` values are modelled as `ℕ` with explicit
  `% 2 ^ 64` wherever the source arithmetic can wrap (`compute_polynomial`,
  the share sums); `i64` values are modelled as `ℤ`.

* **Floating point.**  Both Lagrange-coefficient routines (`mul_zero` in
  `bls_shamir` and the loop in `aggregate_shares` in `dkg`) compute the
  coefficient `∏ xm / (xm - xj)` in `f64` and then cast `as i64`.  The `f64`
  computation is modelled by exact rational arithmetic (`ℚ`), and the
  `as i64` cast by mathematical truncation toward zero; IEEE rounding error
  and `i64` saturation are not modelled.  Every concrete input appearing in a
  theorem or counterexample below has been checked by hand to evaluate
  identically under exact rational arithmetic and under IEEE `f64`.
-/

namespace ZkLab

/-- `2 ^ 64`, the modulus of Rust `u64` arithmetic. -/
def U64 : ℕ := 2 ^ 64

/-- Truncation of a rational toward zero, the semantics of Rust's `as i64`
cast of an in-range `f64` value. -/
def ratTrunc (q : ℚ) : ℤ := q.num.tdiv q.den

/-- The Lagrange-coefficient product `∏ xm / (xm - xj)` over the abscissas
`xs`, skipping factors with `xm = xj`, exactly as computed by the inner loops
of `mul_zero` (`bls_shamir/src/main.rs` lines 96-103) and `aggregate_shares`
(`dkg/src/main.rs` lines 207-214): the accumulator starts at `1` and the list
is traversed left to right.  The source computes in `f64`; this model uses
exact rationals (see the module docstring). -/
def lagRat (xs : List ℕ) (xj : ℕ) : ℚ :=
  xs.foldl (fun (r : ℚ) (xm : ℕ) =>
    if xm = xj then r else r * ((xm : ℚ) / ((xm : ℚ) - (xj : ℚ)))) 1

/-- `mul_zero` from `bls_shamir/src/main.rs` (lines 91-110): computes the
Lagrange coefficient at `0` for every point, asserting
`r as i64 as f64 == r` (exact integrality after truncation).  The Rust
`assert_eq!` panic is modelled by `Option`: `none` means the assertion
fired. -/
def mul_zero {T : Type} (points : List (ℕ × T)) : Option (List (ℤ × T)) :=
  points.mapM (fun p =>
    let r := lagRat (points.map Prod.fst) p.1
    if ((ratTrunc r : ℤ) : ℚ) = r then some (ratTrunc r, p.2) else none)

/-- `projective_mul` from `bls_shamir/src/main.rs` (lines 112-123): scales a
group element (discrete log `y`) by a signed integer coefficient, negating
the positively-scaled element when the coefficient is negative. -/
def projective_mul {F : Type} [CommRing F] (p : ℤ × F) : F :=
  if p.1 < 0 then -(p.2 * (((-p.1).toNat : ℕ) : F)) else p.2 * ((p.1.toNat : ℕ) : F)

/-- `compute_polynomial` from `dkg/src/main.rs` (lines 183-190):
`∑ a_i * x^i` in `u64` machine arithmetic.  `x.pow` wraps modulo `2 ^ 64`,
as do the product and the running sum. -/
def compute_polynomial (coefficients : List ℕ) (x : ℕ) : ℕ :=
  ((coefficients.enum.map (fun p => p.2 * (x ^ p.1 % U64) % U64)).foldl
    (fun s t => (s + t) % U64) 0)

/-- Reference value of the polynomial: the exact natural number
`∑ a_i * x^i`, with no `u64` wrapping. -/
def polyVal (coefficients : List ℕ) (x : ℕ) : ℕ :=
  ∑ i ∈ Finset.range coefficients.length, coefficients.getD i 0 * x ^ i

/-- `compute_polynomial_g` from `dkg/src/main.rs` (lines 192-199):
`∑ (a_i·G) * Scalar::from(x^i)` computed in the group (discrete logs), where
`x.pow` still wraps in `u64` before being lifted to the scalar field. -/
def compute_polynomial_g {F : Type} [CommRing F] (coefficients : List F) (x : ℕ) : F :=
  (coefficients.enum.map (fun p => p.2 * ((x ^ p.1 % U64 : ℕ) : F))).sum

/-- The public commitment to a `u64` coefficient vector: each coefficient is
mapped to `G * Scalar::from(a)` (`dkg/src/main.rs` lines 45-52), whose
discrete log is the coefficient cast into the scalar field. -/
def commit (F : Type) [CommRing F] (c : List ℕ) : List F :=
  c.map (fun a => ((a : ℕ) : F))

/-- `aggregate_shares` from `dkg/src/main.rs` (lines 203-229): for each share
`(xj, yM)` it computes the Lagrange coefficient at `0` in `f64`, truncates it
`as i64`, scales the share (negating when the coefficient is negative) and
accumulates.  The accumulator starts at the `G2` generator (discrete log `1`)
and the generator is subtracted again before returning. -/
def aggregate_shares {F : Type} [CommRing F] (shares : List (ℕ × F)) : F :=
  (shares.foldl
    (fun result s =>
      let r : ℤ := ratTrunc (lagRat (shares.map Prod.fst) s.1)
      result + (if r < 0 then -(s.2 * (((-r).toNat : ℕ) : F)) else s.2 * ((r.toNat : ℕ) : F)))
    1) - 1

/-! ## The `bls_shamir` demo (`src/bls_shamir/src/main.rs`, lines 13-40) -/

/-- The hand-chosen secret shares `(8, 43)` and `(16, 83)` on `F(x) = 5x + 3`
(line 13). -/
def bls_secret_points : List (ℕ × ℕ) := [(8, 43), (16, 83)]

/-- The public points `(x, y·G)` (lines 16-20), with `y·G` represented by its
discrete log `(y : F)`. -/
def bls_public_points (F : Type) [CommRing F] : List (ℕ × F) :=
  bls_secret_points.map (fun p => (p.1, ((p.2 : ℕ) : F)))

/-- The reconstructed private key (lines 23-26): `∑ m * y` over the
`mul_zero` coefficients, summed in `i64` and cast `as u64`.  `none` models
the `mul_zero` assertion panicking. -/
def bls_private_key : Option ℕ :=
  (mul_zero bls_secret_points).map
    (fun l => (((l.map (fun p => p.1 * ((p.2 : ℕ) : ℤ))).sum % (U64 : ℤ)).toNat))

/-- The public key reconstructed homomorphically from the public points
(lines 29-33): `∑ projective_mul (m, y·G)`. -/
def bls_public_key (F : Type) [CommRing F] : Option F :=
  (mul_zero (bls_public_points F)).map (fun l => (l.map projective_mul).sum)

/-! ## The `dkg` demo (`src/dkg/src/main.rs`) -/

/-- Dealer `f`'s coefficients, `f(x) = 3x² + 8x + 5` (line 23). -/
def f_coefficients : List ℕ := [5, 8, 3]

/-- Dealer `g`'s coefficients, `g(x) = 9x² + 3x + 19` (line 24). -/
def g_coefficients : List ℕ := [19, 3, 9]

/-- `f`'s secret shares `(x, f(x))` for `x` in `1..=5` (lines 30-32). -/
def f_points : List (ℕ × ℕ) :=
  (List.range 5).map (fun k => (k + 1, compute_polynomial f_coefficients (k + 1)))

/-- `g`'s secret shares `(x, g(x))` for `x` in `1..=5` (lines 33-35). -/
def g_points : List (ℕ × ℕ) :=
  (List.range 5).map (fun k => (k + 1, compute_polynomial g_coefficients (k + 1)))

/-- `f`'s public points `(x, y·G)` (lines 55-58). -/
def f_public_points (F : Type) [CommRing F] : List (ℕ × F) :=
  f_points.map (fun p => (p.1, ((p.2 : ℕ) : F)))

/-- `g`'s public points `(x, y·G)` (lines 59-62). -/
def g_public_points (F : Type) [CommRing F] : List (ℕ × F) :=
  g_points.map (fun p => (p.1, ((p.2 : ℕ) : F)))

/-- The coefficient-wise group sum of two commitments, as in
`h_public_coefficients` (lines 100-104). -/
def sum_commit (F : Type) [CommRing F] (cf cg : List F) : List F :=
  List.zipWith (fun a b => a + b) cf cg

/-- Coefficient-wise `u64` sum of two coefficient vectors (wrapping),
the scalar counterpart of `sum_commit` used on the share values
`(x, f + g)` (lines 106-110). -/
def sum_coeffs (f g : List ℕ) : List ℕ :=
  List.zipWith (fun a b => (a + b) % U64) f g

/-- `h_public_coefficients` (lines 100-104): the public commitment to the
combined polynomial `h = f + g`. -/
def h_public_coefficients (F : Type) [CommRing F] : List F :=
  sum_commit F (commit F f_coefficients) (commit F g_coefficients)

/-- The combined shares `(x, f(x) + g(x))` (lines 106-110); the `u64`
addition wraps. -/
def h_shares : List (ℕ × ℕ) :=
  List.zipWith (fun p q => (p.1, (p.2 + q.2) % U64)) f_points g_points

/-- The group public key `h(0)·G` (line 116). -/
def public_key (F : Type) [CommRing F] : F :=
  compute_polynomial_g (h_public_coefficients F) 0

/-- The combined polynomial value `h(x) = f(x) + g(x)` as the code computes
it for the shares (lines 106-110): `u64` addition of the two `u64`
evaluations. -/
def h_at (x : ℕ) : ℕ :=
  (compute_polynomial f_coefficients x + compute_polynomial g_coefficients x) % U64

/-- The signature shares submitted in the demo round (lines 130-141): the
first three honest shares `(x, y·M)` plus node 4's invalid share
`(4, 29·M)`.  `m` is the discrete log of the hashed message point `M`. -/
def dkg_sign_shares (F : Type) [CommRing F] (m : F) : List (ℕ × F) :=
  (h_shares.take 3).map (fun p => (p.1, m * ((p.2 : ℕ) : F))) ++ [(4, m * ((29 : ℕ) : F))]

/-- The pairing-based share filter predicate (lines 147-158): look up the
public points of node `x`, form `yG = f_pub[x-1] + g_pub[x-1]`, and check
`e(yG, M) == e(G, yM)`, which in discrete logs is `yG * m = yM`.  The source
indexes with `(x - 1) as usize` and would panic for `x` outside `1..=5`;
the model uses `getD` with a default, and is only invoked at in-range `x`. -/
def share_valid (F : Type) [CommRing F] [DecidableEq F] (m : F) (p : ℕ × F) : Bool :=
  decide ((((f_public_points F).getD (p.1 - 1) (0, 0)).2 +
    ((g_public_points F).getD (p.1 - 1) (0, 0)).2) * m = p.2)

/-- The filtering step of the signing round (lines 147-158). -/
def filter_valid (F : Type) [CommRing F] [DecidableEq F] (m : F)
    (shares : List (ℕ × F)) : List (ℕ × F) :=
  shares.filter (share_valid F m)

/-- The whole signing round as the code performs it (lines 147-168): filter
the submitted shares, then aggregate whatever survives.  There is no
threshold check between the two steps. -/
def sign_round (F : Type) [CommRing F] [DecidableEq F] (m : F)
    (shares : List (ℕ × F)) : F :=
  aggregate_shares (filter_valid F m shares)

/-! ## Basic lemmas about the embedded operations -/

theorem ratTrunc_den_one {q : ℚ} (h : q.den = 1) : ((ratTrunc q : ℤ) : ℚ) = q := by
  have h1 : ratTrunc q = q.num := by
    simp [ratTrunc, h]
  rw [h1]
  exact (Rat.den_eq_one_iff q).mp h

theorem ratTrunc_cast_eq_iff (q : ℚ) : ((ratTrunc q : ℤ) : ℚ) = q ↔ q.den = 1 := by
  constructor
  · intro h
    have hd := Rat.den_intCast (ratTrunc q)
    rw [h] at hd
    exact hd
  · exact ratTrunc_den_one

theorem ratTrunc_intCast (n : ℤ) : ratTrunc ((n : ℤ) : ℚ) = n := by
  simp [ratTrunc, Rat.den_intCast, Rat.num_intCast]

/-- Scaling by a signed integer with explicit negation (the `if r < 0` branch
used by `projective_mul` and `aggregate_shares`) is multiplication by the
integer cast into the ring. -/
theorem intScale_eq {F : Type} [CommRing F] (r : ℤ) (y : F) :
    (if r < 0 then -(y * (((-r).toNat : ℕ) : F)) else y * ((r.toNat : ℕ) : F))
      = ((r : ℤ) : F) * y := by
  by_cases h : r < 0
  · rw [if_pos h]
    have h1 : (((-r).toNat : ℕ) : ℤ) = -r := Int.toNat_of_nonneg (by omega)
    have h2 : (((-r).toNat : ℕ) : F) = ((-r : ℤ) : F) := by
      rw [← h1]
      exact (Int.cast_natCast _).symm
    rw [h2]
    push_cast
    ring
  · rw [if_neg h]
    have h1 : ((r.toNat : ℕ) : ℤ) = r := Int.toNat_of_nonneg (by omega)
    have h2 : ((r.toNat : ℕ) : F) = ((r : ℤ) : F) := by
      rw [← h1]
      exact (Int.cast_natCast _).symm
    rw [h2]
    ring

theorem projective_mul_eq {F : Type} [CommRing F] (p : ℤ × F) :
    projective_mul p = ((p.1 : ℤ) : F) * p.2 := by
  rw [projective_mul, intScale_eq]

theorem foldl_add_sum {F : Type} [AddCommMonoid F] {α : Type} (h : α → F) :
    ∀ (l : List α) (a : F), l.foldl (fun r s => r + h s) a = a + (l.map h).sum := by
  intro l
  induction l with
  | nil => intro a; simp
  | cons x t ih =>
    intro a
    simp only [List.foldl_cons, List.map_cons, List.sum_cons]
    rw [ih (a + h x), add_assoc]

/-- `aggregate_shares` is the plain sum of the truncated-coefficient-scaled
shares: the initial `G2` generator and the final subtraction cancel, and the
sign-split scaling is multiplication by the signed integer. -/
theorem aggregate_shares_eq_sum {F : Type} [CommRing F] (shares : List (ℕ × F)) :
    aggregate_shares shares =
      (shares.map (fun s =>
        ((ratTrunc (lagRat (shares.map Prod.fst) s.1) : ℤ) : F) * s.2)).sum := by
  unfold aggregate_shares
  rw [foldl_add_sum
    (fun s : ℕ × F =>
      (if ratTrunc (lagRat (shares.map Prod.fst) s.1) < 0 then
        -(s.2 * ((((-(ratTrunc (lagRat (shares.map Prod.fst) s.1))).toNat : ℕ)) : F))
      else s.2 * ((((ratTrunc (lagRat (shares.map Prod.fst) s.1)).toNat : ℕ)) : F)))
    shares 1]
  rw [add_sub_cancel_left]
  exact congrArg List.sum (List.map_congr_left (fun s _ => intScale_eq _ _))

theorem mapM_eq_some {α β : Type} (f : α → Option β) (g : α → β) :
    ∀ l : List α, (∀ a ∈ l, f a = some (g a)) → l.mapM f = some (l.map g) := by
  intro l
  induction l with
  | nil => intro _; rfl
  | cons a t ih =>
    intro h
    rw [List.mapM_cons, h a (List.mem_cons_self a t), ih (fun b hb => h b (List.mem_cons_of_mem a hb))]
    rfl

theorem mapM_eq_none {α β : Type} (f : α → Option β) :
    ∀ l : List α, (∃ a ∈ l, f a = none) → l.mapM f = none := by
  intro l
  induction l with
  | nil => rintro ⟨a, ha, _⟩; exact absurd ha (List.not_mem_nil a)
  | cons b t ih =>
    rintro ⟨a, ha, hfa⟩
    rw [List.mapM_cons]
    rcases List.mem_cons.mp ha with h | h
    · rw [h] at hfa
      rw [hfa]
      rfl
    · cases hfb : f b with
      | none => rfl
      | some v =>
        rw [ih ⟨a, h, hfa⟩]
        rfl

/-- When every Lagrange coefficient is an exact integer, `mul_zero` succeeds
and returns the truncated (= exact) coefficients. -/
theorem mul_zero_eq_some {T : Type} (points : List (ℕ × T))
    (hall : ∀ p ∈ points, (lagRat (points.map Prod.fst) p.1).den = 1) :
    mul_zero points =
      some (points.map (fun p => (ratTrunc (lagRat (points.map Prod.fst) p.1), p.2))) := by
  apply mapM_eq_some
  intro p hp
  simp only
  rw [if_pos (ratTrunc_den_one (hall p hp))]

/-- When some Lagrange coefficient is not an exact integer, the `mul_zero`
assertion fires. -/
theorem mul_zero_eq_none {T : Type} (points : List (ℕ × T))
    (hsome : ∃ p ∈ points, (lagRat (points.map Prod.fst) p.1).den ≠ 1) :
    mul_zero points = none := by
  apply mapM_eq_none
  obtain ⟨p, hp, hd⟩ := hsome
  refine ⟨p, hp, ?_⟩
  simp only
  rw [if_neg]
  intro hc
  exact hd ((ratTrunc_cast_eq_iff _).mp hc)

/-! ## `compute_polynomial`: `u64` wrapping semantics -/

theorem enumFrom_map_sum {α M : Type} [AddCommMonoid M] (f : ℕ → α → M) (d : α) :
    ∀ (c : List α) (n : ℕ),
      ((List.enumFrom n c).map (fun p => f p.1 p.2)).sum =
        ∑ i ∈ Finset.range c.length, f (n + i) (c.getD i d) := by
  intro c
  induction c with
  | nil => intro n; simp
  | cons a t ih =>
    intro n
    simp only [List.enumFrom_cons, List.map_cons, List.sum_cons, List.length_cons]
    rw [ih (n + 1), Finset.sum_range_succ']
    simp only [List.getD_cons_succ, List.getD_cons_zero, Nat.add_zero]
    rw [add_comm]
    congr 1
    refine Finset.sum_congr rfl (fun i _ => ?_)
    rw [show n + (i + 1) = n + 1 + i from by omega]

theorem enum_map_sum {α M : Type} [AddCommMonoid M] (f : ℕ → α → M) (d : α) (c : List α) :
    (c.enum.map (fun p => f p.1 p.2)).sum =
      ∑ i ∈ Finset.range c.length, f i (c.getD i d) := by
  have h := enumFrom_map_sum f d c 0
  simpa using h

theorem foldl_mod_add :
    ∀ (l : List ℕ) (a : ℕ),
      l.foldl (fun s t => (s + t) % U64) (a % U64) = (a + l.sum) % U64 := by
  intro l
  induction l with
  | nil => intro a; simp
  | cons t ts ih =>
    intro a
    simp only [List.foldl_cons, List.sum_cons]
    have hU : U64 = 18446744073709551616 := by norm_num [U64]
    have h1 : (a % U64 + t) % U64 = (a + t) % U64 := by
      rw [hU]
      omega
    rw [h1, ih (a + t)]
    congr 1
    omega

/-- The `u64` evaluation is the exact polynomial value reduced modulo
`2 ^ 64`. -/
theorem compute_polynomial_mod (c : List ℕ) (x : ℕ) :
    compute_polynomial c x = polyVal c x % U64 := by
  have h0 : (0 : ℕ) = 0 % U64 := by norm_num [U64]
  rw [compute_polynomial, h0, foldl_mod_add, Nat.zero_add]
  rw [enum_map_sum (fun i a => a * (x ^ i % U64) % U64) 0 c]
  rw [polyVal, Finset.sum_nat_mod]
  conv_rhs => rw [Finset.sum_nat_mod]
  congr 1
  refine Finset.sum_congr rfl (fun i _ => ?_)
  conv_rhs => rw [Nat.mul_mod]
  rw [Nat.mod_mod_of_dvd, ← Nat.mul_mod]
  · rw [Nat.mul_mod, Nat.mod_mod_of_dvd, ← Nat.mul_mod]
    exact dvd_refl U64
  · exact dvd_refl U64

/-- Without overflow, the `u64` evaluation is exact. -/
theorem compute_polynomial_exact {c : List ℕ} {x : ℕ} (h : polyVal c x < U64) :
    compute_polynomial c x = polyVal c x := by
  rw [compute_polynomial_mod, Nat.mod_eq_of_lt h]

/-! ## Group-side evaluation and the VSS relation -/

theorem compute_polynomial_g_eq_sum {F : Type} [CommRing F] (c : List F) (x : ℕ) :
    compute_polynomial_g c x =
      ∑ i ∈ Finset.range c.length, c.getD i 0 * ((x ^ i % U64 : ℕ) : F) := by
  rw [compute_polynomial_g]
  exact enum_map_sum (fun i a => a * ((x ^ i % U64 : ℕ) : F)) 0 c

theorem commit_getD {F : Type} [CommRing F] (c : List ℕ) {i : ℕ} (hi : i < c.length) :
    (commit F c).getD i 0 = ((c.getD i 0 : ℕ) : F) := by
  have hlen : i < (commit F c).length := by simpa [commit] using hi
  rw [List.getD_eq_getElem _ _ hlen, List.getD_eq_getElem _ _ hi]
  simp [commit]

/-- When the exact polynomial value does not overflow `u64`, evaluating the
commitment in the group agrees with the scalar evaluation lifted by the
generator. -/
theorem vss_exact {F : Type} [CommRing F] (c : List ℕ) (x : ℕ)
    (h : polyVal c x < U64) :
    compute_polynomial_g (commit F c) x = ((compute_polynomial c x : ℕ) : F) := by
  rw [compute_polynomial_exact h, compute_polynomial_g_eq_sum, polyVal, Nat.cast_sum]
  have hlen : (commit F c).length = c.length := by simp [commit]
  rw [hlen]
  refine Finset.sum_congr rfl (fun i hi => ?_)
  have hi' : i < c.length := Finset.mem_range.mp hi
  rw [commit_getD c hi']
  by_cases hz : c.getD i 0 = 0
  · rw [hz]
    simp
  · have hxi : x ^ i < U64 := by
      have h1 : x ^ i ≤ c.getD i 0 * x ^ i :=
        Nat.le_mul_of_pos_left _ (Nat.pos_of_ne_zero hz)
      have h2 : c.getD i 0 * x ^ i ≤ polyVal c x := by
        rw [polyVal]
        exact Finset.single_le_sum (f := fun j => c.getD j 0 * x ^ j)
          (fun j _ => Nat.zero_le _) hi
      omega
    rw [Nat.mod_eq_of_lt hxi]
    push_cast
    ring

/-! ## Structure of the Lagrange-coefficient product -/

theorem lagRat_foldl_prod (xj : ℕ) (q : ℕ → ℚ) :
    ∀ (xs : List ℕ) (a : ℚ),
      xs.foldl (fun (r : ℚ) (xm : ℕ) => if xm = xj then r else r * q xm) a =
        a * ((xs.filter (fun xm => xm ≠ xj)).map q).prod := by
  intro xs
  induction xs with
  | nil => intro a; simp
  | cons x t ih =>
    intro a
    by_cases h : x = xj
    · rw [List.foldl_cons, if_pos h, ih a]
      have hf : (x :: t).filter (fun xm => xm ≠ xj) = t.filter (fun xm => xm ≠ xj) := by
        simp [List.filter_cons, h]
      rw [hf]
    · rw [List.foldl_cons, if_neg h, ih (a * q x)]
      have hf : (x :: t).filter (fun xm => xm ≠ xj) = x :: t.filter (fun xm => xm ≠ xj) := by
        simp [List.filter_cons, h]
      rw [hf, List.map_cons, List.prod_cons]
      ring

theorem lagRat_eq_prod (xs : List ℕ) (xj : ℕ) :
    lagRat xs xj =
      ((xs.filter (fun xm => xm ≠ xj)).map
        (fun (xm : ℕ) => (xm : ℚ) / ((xm : ℚ) - (xj : ℚ)))).prod := by
  rw [lagRat, lagRat_foldl_prod, one_mul]

/-- The point `x = 0` always receives Lagrange coefficient `1`: every factor
`xm / (xm - 0)` is `1`. -/
theorem lagRat_zero_left (xs : List ℕ) : lagRat xs 0 = 1 := by
  have aux : ∀ (l : List ℕ) (a : ℚ),
      l.foldl (fun (r : ℚ) (xm : ℕ) =>
        if xm = 0 then r else r * ((xm : ℚ) / ((xm : ℚ) - (((0 : ℕ) : ℚ))))) a = a := by
    intro l
    induction l with
    | nil => intro a; rfl
    | cons x t ih =>
      intro a
      by_cases h : x = 0
      · rw [List.foldl_cons, if_pos h]
        exact ih a
      · rw [List.foldl_cons, if_neg h, Nat.cast_zero, sub_zero,
          div_self (by exact_mod_cast h : ((x : ℕ) : ℚ) ≠ 0), mul_one]
        exact ih a
  exact aux xs 1

/-- If `0` occurs among the abscissas, every other point's coefficient
product contains the factor `0 / (0 - xj)` and is therefore `0`. -/
theorem lagRat_of_zero_mem {xs : List ℕ} {xj : ℕ} (hj : xj ≠ 0) (h0 : 0 ∈ xs) :
    lagRat xs xj = 0 := by
  have aux0 : ∀ (l : List ℕ),
      l.foldl (fun (r : ℚ) (xm : ℕ) =>
        if xm = xj then r else r * ((xm : ℚ) / ((xm : ℚ) - (xj : ℚ)))) 0 = 0 := by
    intro l
    induction l with
    | nil => rfl
    | cons x t ih =>
      by_cases h : x = xj
      · rw [List.foldl_cons, if_pos h]
        exact ih
      · rw [List.foldl_cons, if_neg h, zero_mul]
        exact ih
  have aux : ∀ (l : List ℕ) (a : ℚ), 0 ∈ l →
      l.foldl (fun (r : ℚ) (xm : ℕ) =>
        if xm = xj then r else r * ((xm : ℚ) / ((xm : ℚ) - (xj : ℚ)))) a = 0 := by
    intro l
    induction l with
    | nil => intro a ha; exact absurd ha (List.not_mem_nil 0)
    | cons x t ih =>
      intro a ha
      rcases List.mem_cons.mp ha with h | h
      · have hx : ¬ x = xj := by omega
        rw [List.foldl_cons, if_neg hx, ← h, Nat.cast_zero, zero_div,
          MulZeroClass.mul_zero]
        exact aux0 t
      · by_cases hx : x = xj
        · rw [List.foldl_cons, if_pos hx]
          exact ih _ h
        · rw [List.foldl_cons, if_neg hx]
          exact ih _ h
  exact aux xs 1 h0

/-! ## Exact Lagrange interpolation at the origin over `ℚ` -/

/-- The polynomial over `ℚ` with the (cast) `u64` coefficients of the list
`c`: the mathematical object the coefficient vector denotes. -/
noncomputable def PQ (c : List ℕ) : Polynomial ℚ :=
  ∑ i ∈ Finset.range c.length, Polynomial.C ((c.getD i 0 : ℕ) : ℚ) * Polynomial.X ^ i

theorem PQ_eval (c : List ℕ) (x : ℕ) : (PQ c).eval ((x : ℕ) : ℚ) = ((polyVal c x : ℕ) : ℚ) := by
  rw [PQ, Polynomial.eval_finset_sum, polyVal, Nat.cast_sum]
  refine Finset.sum_congr rfl (fun i _ => ?_)
  push_cast
  simp

theorem PQ_degree_lt (c : List ℕ) : (PQ c).degree < (c.length : WithBot ℕ) := by
  rw [PQ]
  refine lt_of_le_of_lt (Polynomial.degree_sum_le _ _) ?_
  rw [Finset.sup_lt_iff (WithBot.bot_lt_coe _)]
  intro i hi
  refine lt_of_le_of_lt (Polynomial.degree_C_mul_X_pow_le _ _) ?_
  exact_mod_cast Finset.mem_range.mp hi

/-- For a duplicate-free abscissa list, the foldl-product form of the
Lagrange coefficient is the finset product over the other abscissas. -/
theorem lagRat_eq_finset_prod {xs : List ℕ} (hnd : xs.Nodup) (xj : ℕ) :
    lagRat xs xj = ∏ xm ∈ xs.toFinset.erase xj, ((xm : ℚ) / ((xm : ℚ) - (xj : ℚ))) := by
  classical
  rw [lagRat_eq_prod,
    ← List.prod_toFinset (fun (xm : ℕ) => (xm : ℚ) / ((xm : ℚ) - (xj : ℚ)))
      (hnd.filter (fun xm => decide (xm ≠ xj)))]
  congr 1
  rw [List.toFinset_filter]
  ext a
  simp [Finset.mem_erase, and_comm]

/-- The Lagrange basis polynomial for node `xj`, evaluated at `0`, is the
product of the factors `xm / (xm - xj)` computed by the source loops. -/
theorem eval_basis_zero (s : Finset ℕ) (xj : ℕ) :
    (Lagrange.basis s (fun n : ℕ => (n : ℚ)) xj).eval 0 =
      ∏ xm ∈ s.erase xj, ((xm : ℚ) / ((xm : ℚ) - (xj : ℚ))) := by
  classical
  rw [Lagrange.basis, Polynomial.eval_prod]
  refine Finset.prod_congr rfl (fun xm hxm => ?_)
  have hne : xm ≠ xj := (Finset.mem_erase.mp hxm).1
  have hne' : (xm : ℚ) ≠ (xj : ℚ) := by exact_mod_cast hne
  have h1 : (xj : ℚ) - (xm : ℚ) ≠ 0 := sub_ne_zero.mpr hne'.symm
  have h2 : (xm : ℚ) - (xj : ℚ) ≠ 0 := sub_ne_zero.mpr hne'
  rw [Lagrange.basisDivisor, Polynomial.eval_mul, Polynomial.eval_C, Polynomial.eval_sub,
    Polynomial.eval_X, Polynomial.eval_C]
  field_simp
  ring

/-- Exact Lagrange interpolation at the origin: for a duplicate-free list of
abscissas at least as long as the coefficient vector, the coefficient-weighted
sum of the exact polynomial values reconstructs the exact constant term. -/
theorem sum_lag_eval (c : List ℕ) {xs : List ℕ} (hnd : xs.Nodup)
    (hlen : c.length ≤ xs.length) :
    (xs.map (fun (x : ℕ) => lagRat xs x * ((polyVal c x : ℕ) : ℚ))).sum =
      ((polyVal c 0 : ℕ) : ℚ) := by
  classical
  have hinj : Set.InjOn (fun n : ℕ => (n : ℚ)) xs.toFinset :=
    fun a _ b _ h => Nat.cast_injective h
  have hcard : xs.toFinset.card = xs.length := List.toFinset_card_of_nodup hnd
  have hdeg : (PQ c).degree < xs.toFinset.card := by
    refine lt_of_lt_of_le (PQ_degree_lt c) ?_
    rw [hcard]
    exact_mod_cast hlen
  have h0 := Lagrange.eq_interpolate hinj hdeg
  have h1 := congrArg (Polynomial.eval (0 : ℚ)) h0
  rw [Lagrange.interpolate_apply, Polynomial.eval_finset_sum] at h1
  rw [← List.sum_toFinset _ hnd]
  have h2 : ∀ x ∈ xs.toFinset,
      lagRat xs x * ((polyVal c x : ℕ) : ℚ) =
        (Polynomial.C ((PQ c).eval ((x : ℕ) : ℚ)) *
          Lagrange.basis xs.toFinset (fun n : ℕ => (n : ℚ)) x).eval 0 := by
    intro x hx
    rw [Polynomial.eval_mul, Polynomial.eval_C, eval_basis_zero, PQ_eval,
      lagRat_eq_finset_prod hnd x]
    ring
  rw [Finset.sum_congr rfl h2, ← h1, ← Nat.cast_zero (R := ℚ), PQ_eval]

/-- Integer form of exact interpolation at the origin: when every Lagrange
coefficient is an exact integer, the truncated coefficients reconstruct the
constant term over `ℤ`. -/
theorem sum_lag_int (c : List ℕ) {xs : List ℕ} (hnd : xs.Nodup)
    (hlen : c.length ≤ xs.length)
    (hint : ∀ x ∈ xs, (lagRat xs x).den = 1) :
    (xs.map (fun (x : ℕ) => ratTrunc (lagRat xs x) * ((polyVal c x : ℕ) : ℤ))).sum =
      ((polyVal c 0 : ℕ) : ℤ) := by
  have hq := sum_lag_eval c hnd hlen
  have key : (xs.map (fun (x : ℕ) =>
      ((ratTrunc (lagRat xs x) : ℤ) : ℚ) * ((polyVal c x : ℕ) : ℚ))).sum =
      ((polyVal c 0 : ℕ) : ℚ) := by
    rw [← hq]
    congr 1
    refine List.map_congr_left (fun x hx => ?_)
    rw [ratTrunc_den_one (hint x hx)]
  apply Int.cast_injective (α := ℚ)
  rw [Int.cast_list_sum, List.map_map, Int.cast_natCast, ← key]
  congr 1
  refine List.map_congr_left (fun x _ => ?_)
  simp only [Function.comp_apply]
  push_cast
  ring

/-- The interpolation identity transported into an arbitrary commutative
ring `F` (the discrete-log representation of the curve groups). -/
theorem sum_lag_ring {F : Type} [CommRing F] (c : List ℕ) {xs : List ℕ}
    (hnd : xs.Nodup) (hlen : c.length ≤ xs.length)
    (hint : ∀ x ∈ xs, (lagRat xs x).den = 1) :
    (xs.map (fun (x : ℕ) =>
      ((ratTrunc (lagRat xs x) : ℤ) : F) * ((polyVal c x : ℕ) : F))).sum =
      ((polyVal c 0 : ℕ) : F) := by
  have h := sum_lag_int c hnd hlen hint
  have h2 := congrArg (fun z : ℤ => ((z : ℤ) : F)) h
  simp only at h2
  rw [Int.cast_list_sum, List.map_map, Int.cast_natCast] at h2
  rw [← h2]
  congr 1
  refine List.map_congr_left (fun x _ => ?_)
  simp only [Function.comp_apply]
  push_cast
  ring

/-! ## Concrete evaluations of the dkg demo data -/

theorem f_points_eq : f_points = [(1, 16), (2, 33), (3, 56), (4, 85), (5, 120)] := by decide

theorem g_points_eq : g_points = [(1, 31), (2, 61), (3, 109), (4, 175), (5, 259)] := by decide

theorem h_shares_eq : h_shares = [(1, 47), (2, 94), (3, 165), (4, 260), (5, 379)] := by decide

theorem f_public_points_eq (F : Type) [CommRing F] :
    f_public_points F = [(1, ((16 : ℕ) : F)), (2, ((33 : ℕ) : F)), (3, ((56 : ℕ) : F)),
      (4, ((85 : ℕ) : F)), (5, ((120 : ℕ) : F))] := by
  rw [f_public_points, f_points_eq]
  rfl

theorem g_public_points_eq (F : Type) [CommRing F] :
    g_public_points F = [(1, ((31 : ℕ) : F)), (2, ((61 : ℕ) : F)), (3, ((109 : ℕ) : F)),
      (4, ((175 : ℕ) : F)), (5, ((259 : ℕ) : F))] := by
  rw [g_public_points, g_points_eq]
  rfl

theorem public_key_eq (F : Type) [CommRing F] : public_key F = ((24 : ℕ) : F) := by
  rw [public_key, h_public_coefficients, sum_commit, commit, commit, f_coefficients,
    g_coefficients]
  rw [compute_polynomial_g]
  simp only [List.map_cons, List.map_nil, List.zipWith_cons_cons, List.zipWith_nil_right,
    List.enum, List.enumFrom, List.sum_cons, List.sum_nil]
  norm_num [U64]

/-- The `yG` looked up by the share filter equals the cast combined value
`h(x)` for the five node indices. -/
theorem filter_yG_eq (F : Type) [CommRing F] {x : ℕ} (h1 : 1 ≤ x) (h5 : x ≤ 5) :
    ((f_public_points F).getD (x - 1) (0, 0)).2 +
      ((g_public_points F).getD (x - 1) (0, 0)).2 = ((h_at x : ℕ) : F) := by
  rw [f_public_points_eq, g_public_points_eq]
  interval_cases x
  · rw [show h_at 1 = 47 from by decide]
    push_cast
    norm_num
  · rw [show h_at 2 = 94 from by decide]
    push_cast
    norm_num
  · rw [show h_at 3 = 165 from by decide]
    push_cast
    norm_num
  · rw [show h_at 4 = 260 from by decide]
    push_cast
    norm_num
  · rw [show h_at 5 = 379 from by decide]
    push_cast
    norm_num

/-- An honest share `(x, M * h(x))` passes the pairing filter for any `m`. -/
theorem share_valid_honest (F : Type) [CommRing F] [DecidableEq F] (m : F) {x : ℕ}
    (h1 : 1 ≤ x) (h5 : x ≤ 5) :
    share_valid F m (x, m * ((h_at x : ℕ) : F)) = true := by
  rw [share_valid]
  apply decide_eq_true
  rw [filter_yG_eq F h1 h5]
  ring

/-- Node 4's corrupted share `(4, M * 29)` fails the pairing filter whenever
`m ≠ 0` and `231 ≠ 0` in the scalar field (`231 = h(4) - 29`). -/
theorem share_valid_bad (F : Type) [Field F] [DecidableEq F] (m : F) (hm : m ≠ 0)
    (h231 : (231 : F) ≠ 0) :
    share_valid F m (4, m * ((29 : ℕ) : F)) = false := by
  rw [share_valid]
  apply decide_eq_false
  rw [filter_yG_eq F (by norm_num) (by norm_num), show h_at 4 = 260 from by decide]
  intro hc
  have h0 : (231 : F) * m = 0 := by
    push_cast at hc
    linear_combination hc
  rcases mul_eq_zero.mp h0 with h | h
  · exact h231 h
  · exact hm h

/-- Filtering the demo submission keeps exactly the three honest shares. -/
theorem filter_valid_dkg (F : Type) [Field F] [DecidableEq F] (m : F) (hm : m ≠ 0)
    (h231 : (231 : F) ≠ 0) :
    filter_valid F m (dkg_sign_shares F m) =
      [(1, m * ((47 : ℕ) : F)), (2, m * ((94 : ℕ) : F)), (3, m * ((165 : ℕ) : F))] := by
  have e1 : share_valid F m (1, m * ((47 : ℕ) : F)) = true := by
    have h := share_valid_honest F m (x := 1) (by norm_num) (by norm_num)
    rwa [show h_at 1 = 47 from by decide] at h
  have e2 : share_valid F m (2, m * ((94 : ℕ) : F)) = true := by
    have h := share_valid_honest F m (x := 2) (by norm_num) (by norm_num)
    rwa [show h_at 2 = 94 from by decide] at h
  have e3 : share_valid F m (3, m * ((165 : ℕ) : F)) = true := by
    have h := share_valid_honest F m (x := 3) (by norm_num) (by norm_num)
    rwa [show h_at 3 = 165 from by decide] at h
  have e4 := share_valid_bad F m hm h231
  rw [filter_valid, dkg_sign_shares, h_shares_eq]
  simp only [List.take_succ_cons, List.take_zero, List.map_cons, List.map_nil,
    List.cons_append, List.nil_append, List.filter_cons, e1, e2, e3, e4, List.filter_nil]
  rfl

/-- The demo round aggregates the three surviving honest shares to
`24 · M = h(0) · M`. -/
theorem sign_round_dkg (F : Type) [Field F] [DecidableEq F] (m : F) (hm : m ≠ 0)
    (h231 : (231 : F) ≠ 0) :
    sign_round F m (dkg_sign_shares F m) = ((24 : ℕ) : F) * m := by
  rw [sign_round, filter_valid_dkg F m hm h231, aggregate_shares_eq_sum]
  simp only [List.map_cons, List.map_nil, List.sum_cons, List.sum_nil]
  rw [show ratTrunc (lagRat [1, 2, 3] 1) = 3 from by
      rw [show lagRat [1, 2, 3] 1 = ((3 : ℤ) : ℚ) from by
        norm_num [lagRat, List.foldl_cons, List.foldl_nil], ratTrunc_intCast],
    show ratTrunc (lagRat [1, 2, 3] 2) = -3 from by
      rw [show lagRat [1, 2, 3] 2 = ((-3 : ℤ) : ℚ) from by
        norm_num [lagRat, List.foldl_cons, List.foldl_nil], ratTrunc_intCast],
    show ratTrunc (lagRat [1, 2, 3] 3) = 1 from by
      rw [show lagRat [1, 2, 3] 3 = ((1 : ℤ) : ℚ) from by
        norm_num [lagRat, List.foldl_cons, List.foldl_nil], ratTrunc_intCast]]
  push_cast
  ring

/-! ## Concrete Lagrange coefficients -/

theorem lagRat_12_1 : lagRat [1, 2] 1 = ((2 : ℤ) : ℚ) := by
  norm_num [lagRat, List.foldl_cons, List.foldl_nil]

theorem lagRat_12_2 : lagRat [1, 2] 2 = ((-1 : ℤ) : ℚ) := by
  norm_num [lagRat, List.foldl_cons, List.foldl_nil]

theorem lagRat_124_1 : lagRat [1, 2, 4] 1 = 8 / 3 := by
  norm_num [lagRat, List.foldl_cons, List.foldl_nil]

theorem lagRat_124_2 : lagRat [1, 2, 4] 2 = ((-2 : ℤ) : ℚ) := by
  norm_num [lagRat, List.foldl_cons, List.foldl_nil]

theorem lagRat_124_4 : lagRat [1, 2, 4] 4 = 1 / 3 := by
  norm_num [lagRat, List.foldl_cons, List.foldl_nil]

theorem lagRat_816_8 : lagRat [8, 16] 8 = ((2 : ℤ) : ℚ) := by
  norm_num [lagRat, List.foldl_cons, List.foldl_nil]

theorem lagRat_816_16 : lagRat [8, 16] 16 = ((-1 : ℤ) : ℚ) := by
  norm_num [lagRat, List.foldl_cons, List.foldl_nil]

theorem lagRat_124_4_den : (lagRat [1, 2, 4] 4).den = 3 := by
  rw [lagRat_124_4, show (1 : ℚ) / 3 = Rat.divInt 1 3 from by norm_num [Rat.divInt_eq_div]]
  rfl

theorem ratTrunc_124_1 : ratTrunc (lagRat [1, 2, 4] 1) = 2 := by
  rw [lagRat_124_1, show (8 : ℚ) / 3 = Rat.divInt 8 3 from by norm_num [Rat.divInt_eq_div]]
  rfl

theorem ratTrunc_124_4 : ratTrunc (lagRat [1, 2, 4] 4) = 0 := by
  rw [lagRat_124_4, show (1 : ℚ) / 3 = Rat.divInt 1 3 from by norm_num [Rat.divInt_eq_div]]
  rfl

/-! ## Concrete evaluations of the bls_shamir demo -/

theorem mul_zero_bls_secret : mul_zero bls_secret_points = some [(2, 43), (-1, 83)] := by
  have hfst : bls_secret_points.map Prod.fst = [8, 16] := rfl
  have hden : ∀ p ∈ bls_secret_points, (lagRat (bls_secret_points.map Prod.fst) p.1).den = 1 := by
    intro p hp
    rw [hfst]
    have hp' : p = (8, 43) ∨ p = (16, 83) := by
      simpa [bls_secret_points] using hp
    rcases hp' with h | h <;> subst h
    · rw [lagRat_816_8]
      exact Rat.den_intCast 2
    · rw [lagRat_816_16]
      exact Rat.den_intCast (-1)
  rw [mul_zero_eq_some bls_secret_points hden]
  have e8 : ratTrunc (lagRat [8, 16] 8) = 2 := by
    rw [lagRat_816_8, ratTrunc_intCast]
  have e16 : ratTrunc (lagRat [8, 16] 16) = -1 := by
    rw [lagRat_816_16, ratTrunc_intCast]
  simp [bls_secret_points, e8, e16]

theorem mul_zero_bls_public (F : Type) [CommRing F] :
    mul_zero (bls_public_points F) = some [(2, ((43 : ℕ) : F)), (-1, ((83 : ℕ) : F))] := by
  have hfst : (bls_public_points F).map Prod.fst = [8, 16] := rfl
  have hden : ∀ p ∈ bls_public_points F,
      (lagRat ((bls_public_points F).map Prod.fst) p.1).den = 1 := by
    intro p hp
    rw [hfst]
    have hp' : p = (8, ((43 : ℕ) : F)) ∨ p = (16, ((83 : ℕ) : F)) := by
      simpa [bls_public_points, bls_secret_points] using hp
    rcases hp' with h | h <;> subst h
    · rw [lagRat_816_8]
      exact Rat.den_intCast 2
    · rw [lagRat_816_16]
      exact Rat.den_intCast (-1)
  rw [mul_zero_eq_some (bls_public_points F) hden]
  have e8 : ratTrunc (lagRat [8, 16] 8) = 2 := by
    rw [lagRat_816_8, ratTrunc_intCast]
  have e16 : ratTrunc (lagRat [8, 16] 16) = -1 := by
    rw [lagRat_816_16, ratTrunc_intCast]
  simp [bls_public_points, bls_secret_points, e8, e16]

theorem bls_private_key_eq : bls_private_key = some 3 := by
  rw [bls_private_key, mul_zero_bls_secret]
  rfl

theorem bls_public_key_eq (F : Type) [CommRing F] :
    bls_public_key F = some ((3 : ℕ) : F) := by
  rw [bls_public_key, mul_zero_bls_public]
  simp only [Option.map, List.map_cons, List.map_nil, List.sum_cons, List.sum_nil,
    projective_mul_eq]
  congr 1
  push_cast
  ring

/-! ## Silent truncation on the subset {1, 2, 4} -/

/-- On the share subset with abscissas `{1, 2, 4}` the truncated coefficients
are `2, -2, 0` (the exact ones are `8/3, -2, 1/3`), and `aggregate_shares`
silently returns `-94 · M` instead of `24 · M`.  (Checked by hand: the `f64`
source computation truncates to the same three integers.) -/
theorem aggregate_shares_124 :
    aggregate_shares [((1 : ℕ), (47 : ℚ)), (2, 94), (4, 260)] = -94 := by
  rw [aggregate_shares_eq_sum]
  rw [show ([((1 : ℕ), (47 : ℚ)), (2, 94), (4, 260)].map Prod.fst) = [1, 2, 4] from rfl]
  simp only [List.map_cons, List.map_nil, List.sum_cons, List.sum_nil]
  rw [ratTrunc_124_1, ratTrunc_124_4,
    show ratTrunc (lagRat [1, 2, 4] 2) = -2 from by rw [lagRat_124_2, ratTrunc_intCast]]
  push_cast
  ring

/-- Two honest shares always pass the pairing filter, so after filtering only
two shares remain and aggregation still proceeds. -/
theorem filter_valid_two (F : Type) [CommRing F] [DecidableEq F] (m : F) :
    filter_valid F m [(1, m * ((47 : ℕ) : F)), (2, m * ((94 : ℕ) : F))] =
      [(1, m * ((47 : ℕ) : F)), (2, m * ((94 : ℕ) : F))] := by
  have e1 : share_valid F m (1, m * ((47 : ℕ) : F)) = true := by
    have h := share_valid_honest F m (x := 1) (by norm_num) (by norm_num)
    rwa [show h_at 1 = 47 from by decide] at h
  have e2 : share_valid F m (2, m * ((94 : ℕ) : F)) = true := by
    have h := share_valid_honest F m (x := 2) (by norm_num) (by norm_num)
    rwa [show h_at 2 = 94 from by decide] at h
  rw [filter_valid, List.filter_cons_of_pos e1, List.filter_cons_of_pos e2,
    List.filter_nil]

/-- Aggregating the two honest shares of nodes 1 and 2 yields
`(2·47 - 94) · M = 0`, a value, not a failure. -/
theorem aggregate_shares_two (F : Type) [CommRing F] (m : F) :
    aggregate_shares [(1, m * ((47 : ℕ) : F)), (2, m * ((94 : ℕ) : F))] = 0 := by
  rw [aggregate_shares_eq_sum]
  rw [show ([(1, m * ((47 : ℕ) : F)), (2, m * ((94 : ℕ) : F))].map Prod.fst) = [1, 2]
    from rfl]
  simp only [List.map_cons, List.map_nil, List.sum_cons, List.sum_nil]
  rw [show ratTrunc (lagRat [1, 2] 1) = 2 from by rw [lagRat_12_1, ratTrunc_intCast],
    show ratTrunc (lagRat [1, 2] 2) = -1 from by rw [lagRat_12_2, ratTrunc_intCast]]
  push_cast
  ring

/-! ## `mul_zero` performs no duplicate-or-zero abscissa check -/

/-- With `x = 0` present, `mul_zero` does not fail: the `0` abscissa gets
coefficient `1` and every other abscissa gets coefficient `0`. -/
theorem mul_zero_zero_mem {T : Type} (points : List (ℕ × T))
    (h0 : 0 ∈ points.map Prod.fst) :
    mul_zero points = some (points.map (fun p => (if p.1 = 0 then 1 else 0, p.2))) := by
  have hden : ∀ p ∈ points, (lagRat (points.map Prod.fst) p.1).den = 1 := by
    intro p hp
    by_cases hz : p.1 = 0
    · rw [hz, lagRat_zero_left]
      exact Rat.den_one
    · rw [lagRat_of_zero_mem hz h0]
      rfl
  rw [mul_zero_eq_some points hden]
  congr 1
  refine List.map_congr_left (fun p hp => ?_)
  by_cases hz : p.1 = 0
  · rw [hz, lagRat_zero_left, if_pos rfl,
      show (1 : ℚ) = ((1 : ℤ) : ℚ) from by norm_num, ratTrunc_intCast]
  · rw [lagRat_of_zero_mem hz h0, if_neg hz,
      show (0 : ℚ) = ((0 : ℤ) : ℚ) from by norm_num, ratTrunc_intCast]

/-- With a duplicated abscissa, `mul_zero` does not fail either: the factors
with `xm` equal to the point's own abscissa are skipped, so a fully
duplicated pair gets coefficient `1` twice. -/
theorem mul_zero_dup_pair {T : Type} (a b : T) :
    mul_zero [(2, a), (2, b)] = some [(1, a), (1, b)] := by
  have hlag : lagRat [2, 2] 2 = 1 := by
    norm_num [lagRat, List.foldl_cons, List.foldl_nil]
  have hden : ∀ p ∈ [(2, a), (2, b)],
      (lagRat ([(2, a), (2, b)].map Prod.fst) p.1).den = 1 := by
    intro p hp
    have hp1 : p.1 = 2 := by
      rcases List.mem_cons.mp hp with h | h
      · rw [h]
      · rcases List.mem_cons.mp h with h2 | h2
        · rw [h2]
        · exact absurd h2 (List.not_mem_nil p)
    rw [show ([(2, a), (2, b)].map Prod.fst) = [2, 2] from rfl, hp1, hlag]
    exact Rat.den_one
  rw [mul_zero_eq_some _ hden,
    show ([(2, a), (2, b)].map Prod.fst) = [2, 2] from rfl]
  simp only [List.map_cons, List.map_nil]
  rw [hlag, show (1 : ℚ) = ((1 : ℤ) : ℚ) from by norm_num, ratTrunc_intCast]

/-! ## The claims -/

/-- The naive aggregation that starts from the identity element instead of
the generator (and performs no final subtraction); the comparison point for
claim C9. -/
def aggregate_shares_naive {F : Type} [CommRing F] (shares : List (ℕ × F)) : F :=
  shares.foldl
    (fun result s =>
      let r : ℤ := ratTrunc (lagRat (shares.map Prod.fst) s.1)
      result + (if r < 0 then -(s.2 * (((-r).toNat : ℕ) : F)) else s.2 * ((r.toNat : ℕ) : F)))
    0

/-- Claim C9: `aggregate_shares`, which initialises its accumulator to the
`G2` generator and subtracts the generator again before returning, computes
exactly the plain sum of the `λ`-scaled share values (negative coefficients
realised as negation of the positively-scaled element); it is extensionally
equal to the naive fold starting from the identity element. -/
theorem c9_aggregate_refines_naive_sum {F : Type} [CommRing F] (shares : List (ℕ × F)) :
    aggregate_shares shares = aggregate_shares_naive shares := by
  unfold aggregate_shares_naive
  rw [foldl_add_sum
    (fun s : ℕ × F =>
      (if ratTrunc (lagRat (shares.map Prod.fst) s.1) < 0 then
        -(s.2 * ((((-(ratTrunc (lagRat (shares.map Prod.fst) s.1))).toNat : ℕ)) : F))
      else s.2 * ((((ratTrunc (lagRat (shares.map Prod.fst) s.1)).toNat : ℕ)) : F)))
    shares 0, zero_add, aggregate_shares_eq_sum]
  exact congrArg List.sum (List.map_congr_left (fun s _ => (intScale_eq _ _).symm))

/-- Claim C10: `compute_polynomial` evaluates `∑ a_i·x^i` in unchecked `u64`
machine arithmetic: the result is always the exact value reduced modulo
`2 ^ 64`, and is the exact natural-number value whenever that value fits in
a `u64`. -/
theorem c10_u64_semantics (c : List ℕ) (x : ℕ) :
    compute_polynomial c x = polyVal c x % U64 ∧
      (polyVal c x < U64 → compute_polynomial c x = polyVal c x) :=
  ⟨compute_polynomial_mod c x, fun h => compute_polynomial_exact h⟩

theorem c10_witness :
    polyVal [5, 8, 3] 2 < U64 ∧ compute_polynomial [5, 8, 3] 2 = polyVal [5, 8, 3] 2 :=
  ⟨by decide, (c10_u64_semantics [5, 8, 3] 2).2 (by decide)⟩

/-- Claim C5 is false as stated, because `compute_polynomial` wraps modulo
`2 ^ 64` while the group-side evaluation does not: for the coefficient vector
`[2^32, 2^32]` at `x = 2^32` the scalar side wraps to `2^32` but the
commitment evaluates to `2^32 + 2^64` (over `F = ℚ`). -/
theorem c5_counterexample :
    compute_polynomial [2 ^ 32, 2 ^ 32] (2 ^ 32) = 2 ^ 32 ∧
    compute_polynomial_g (commit ℚ [2 ^ 32, 2 ^ 32]) (2 ^ 32) = 2 ^ 32 + 2 ^ 64 ∧
    compute_polynomial_g (commit ℚ [2 ^ 32, 2 ^ 32]) (2 ^ 32) ≠
      ((compute_polynomial [2 ^ 32, 2 ^ 32] (2 ^ 32) : ℕ) : ℚ) := by
  have h1 : compute_polynomial [2 ^ 32, 2 ^ 32] (2 ^ 32) = 2 ^ 32 := by decide
  have h2 : compute_polynomial_g (commit ℚ [2 ^ 32, 2 ^ 32]) (2 ^ 32) = 2 ^ 32 + 2 ^ 64 := by
    rw [commit, compute_polynomial_g]
    simp only [List.map_cons, List.map_nil, List.enum, List.enumFrom, List.sum_cons,
      List.sum_nil]
    norm_num [U64]
  refine ⟨h1, h2, ?_⟩
  rw [h1, h2]
  norm_num

/-- Claim C5 (amended): VSS consistency
`evaluate_commitment(commit(poly), x) = evaluate(poly, x)·G` holds whenever
the exact value `∑ a_i·x^i` does not overflow `u64`. -/
theorem c5_vss_consistency {F : Type} [CommRing F] (c : List ℕ) (x : ℕ)
    (h : polyVal c x < U64) :
    compute_polynomial_g (commit F c) x = ((compute_polynomial c x : ℕ) : F) :=
  vss_exact c x h

theorem c5_witness :
    polyVal [5, 8, 3] 2 < U64 ∧
    compute_polynomial_g (commit ℚ [5, 8, 3]) 2 = ((compute_polynomial [5, 8, 3] 2 : ℕ) : ℚ) :=
  ⟨by decide, c5_vss_consistency [5, 8, 3] 2 (by decide)⟩

/-- Claim C6: in scenario A (`f(x) = 5x + 3`, shares `(8,43)` and `(16,83)`),
the reconstructed private key is `3 = f(0)`, the homomorphically
reconstructed public key is `3·G`, and the two agree (`public_key` equals the
generator scaled by the reconstructed private key). -/
theorem c6_scenario_a (F : Type) [CommRing F] :
    bls_private_key = some 3 ∧
    bls_public_key F = some ((3 : ℕ) : F) ∧
    bls_public_key F = bls_private_key.map (fun n => ((n : ℕ) : F)) := by
  refine ⟨bls_private_key_eq, bls_public_key_eq F, ?_⟩
  rw [bls_public_key_eq F, bls_private_key_eq]
  rfl

/-- Claim C8 is false as stated: the Lagrange-coefficient computation does
not fail on inputs containing `x = 0` or a repeated abscissa — there is no
`DuplicateOrZeroAbscissa` check in the code.  `mul_zero` succeeds on
`[(0,0),(1,1)]` (returning coefficients `1` and `0`) and on the duplicated
`[(2,5),(2,7)]` (returning coefficient `1` twice). -/
theorem c8_counterexample :
    mul_zero [((0 : ℕ), (0 : ℕ)), (1, 1)] = some [(1, 0), (0, 1)] ∧
    mul_zero [((2 : ℕ), (5 : ℕ)), (2, 7)] = some [(1, 5), (1, 7)] := by
  constructor
  · have h := mul_zero_zero_mem [((0 : ℕ), (0 : ℕ)), (1, 1)] (by decide)
    rw [h]
    rfl
  · exact mul_zero_dup_pair 5 7

/-- Claim C8 (amended): interpolation inputs containing `x = 0` (or repeated
abscissas) are not rejected.  With `0` among the abscissas the call succeeds
and returns coefficient `1` for the zero abscissa and `0` for every other
point; factors between equal abscissas are silently skipped. -/
theorem c8_no_zero_abscissa_check {T : Type} (points : List (ℕ × T))
    (h0 : 0 ∈ points.map Prod.fst) :
    mul_zero points = some (points.map (fun p => (if p.1 = 0 then 1 else 0, p.2))) :=
  mul_zero_zero_mem points h0

theorem c8_witness :
    0 ∈ ([((0 : ℕ), (5 : ℕ)), (3, 7)].map Prod.fst) ∧
    mul_zero [((0 : ℕ), (5 : ℕ)), (3, 7)] =
      some ([((0 : ℕ), (5 : ℕ)), (3, 7)].map (fun p => (if p.1 = 0 then 1 else 0, p.2))) :=
  ⟨by decide, c8_no_zero_abscissa_check [((0 : ℕ), (5 : ℕ)), (3, 7)] (by decide)⟩

/-- Claim C2 is false as stated: `aggregate_shares` performs no integrality
check at all.  On the abscissa set `{1, 2, 4}` the coefficient of `x = 4` is
`1/3` (not an integer), yet `aggregate_shares` silently truncates it to `0`
and returns a value (`-94` on the shares `(1,47), (2,94), (4,260)` over
`ℚ` with `m = 1`) instead of failing. -/
theorem c2_counterexample :
    (lagRat [1, 2, 4] 4).den ≠ 1 ∧
    ratTrunc (lagRat [1, 2, 4] 4) = 0 ∧
    aggregate_shares [((1 : ℕ), (47 : ℚ)), (2, 94), (4, 260)] = -94 := by
  refine ⟨?_, ratTrunc_124_4, aggregate_shares_124⟩
  rw [lagRat_124_4_den]
  norm_num

/-- Claim C2 (amended): `mul_zero` asserts exact integrality of every
computed coefficient — it returns the exact signed-integer coefficients when
all of them are integral and fails otherwise — while `aggregate_shares`
performs no such check and silently truncates each coefficient toward zero
before scaling. -/
theorem c2_integrality_policy {T F : Type} [CommRing F]
    (points : List (ℕ × T)) (shares : List (ℕ × F)) :
    ((∀ p ∈ points, (lagRat (points.map Prod.fst) p.1).den = 1) →
      mul_zero points =
        some (points.map (fun p => (ratTrunc (lagRat (points.map Prod.fst) p.1), p.2)))) ∧
    ((∃ p ∈ points, (lagRat (points.map Prod.fst) p.1).den ≠ 1) →
      mul_zero points = none) ∧
    aggregate_shares shares =
      (shares.map (fun s =>
        ((ratTrunc (lagRat (shares.map Prod.fst) s.1) : ℤ) : F) * s.2)).sum :=
  ⟨fun h => mul_zero_eq_some points h,
   fun h => mul_zero_eq_none points h,
   aggregate_shares_eq_sum shares⟩

theorem c2_witness :
    mul_zero bls_secret_points =
      some (bls_secret_points.map (fun p =>
        (ratTrunc (lagRat (bls_secret_points.map Prod.fst) p.1), p.2))) ∧
    mul_zero [((1 : ℕ), (0 : ℕ)), (2, 0), (4, 0)] = none ∧
    aggregate_shares [((1 : ℕ), (47 : ℚ)), (2, 94), (4, 260)] =
      ([((1 : ℕ), (47 : ℚ)), (2, 94), (4, 260)].map (fun s =>
        ((ratTrunc (lagRat ([((1 : ℕ), (47 : ℚ)), (2, 94), (4, 260)].map Prod.fst) s.1)
          : ℤ) : ℚ) * s.2)).sum := by
  refine ⟨(c2_integrality_policy bls_secret_points ([] : List (ℕ × ℚ))).1 ?_,
    (c2_integrality_policy [((1 : ℕ), (0 : ℕ)), (2, 0), (4, 0)] ([] : List (ℕ × ℚ))).2.1 ?_,
    (c2_integrality_policy ([] : List (ℕ × ℕ))
      [((1 : ℕ), (47 : ℚ)), (2, 94), (4, 260)]).2.2⟩
  · intro p hp
    rw [show bls_secret_points.map Prod.fst = [8, 16] from rfl]
    have hp' : p = (8, 43) ∨ p = (16, 83) := by
      simpa [bls_secret_points] using hp
    rcases hp' with h | h <;> subst h
    · rw [lagRat_816_8]
      exact Rat.den_intCast 2
    · rw [lagRat_816_16]
      exact Rat.den_intCast (-1)
  · refine ⟨(4, 0), by decide, ?_⟩
    rw [show ([((1 : ℕ), (0 : ℕ)), (2, 0), (4, 0)].map Prod.fst) = [1, 2, 4] from rfl,
      lagRat_124_4_den]
    norm_num

/-- Claim C1 is false as stated: not every 3-element subset of the five
`(x, h(x))` shares reconstructs `h(0) = 24`.  With `M` the `G2` generator
(`m = 1`) over `F = ℚ`, the subset with abscissas `{1, 2, 4}` aggregates to
`-94 ≠ 24` because the Lagrange coefficients `8/3` and `1/3` are silently
truncated to `2` and `0`. -/
theorem c1_counterexample :
    h_shares = [(1, 47), (2, 94), (3, 165), (4, 260), (5, 379)] ∧
    public_key ℚ = 24 ∧
    aggregate_shares [((1 : ℕ), (47 : ℚ)), (2, 94), (4, 260)] = -94 ∧
    (-94 : ℚ) ≠ 24 := by
  refine ⟨h_shares_eq, ?_, aggregate_shares_124, by norm_num⟩
  rw [public_key_eq]
  norm_num

/-- Claim C1 (amended): reconstruction yields `evaluate(poly, 0) · M` for
every polynomial and every duplicate-free list of non-zero abscissas of at
least the polynomial's length, provided every Lagrange coefficient at the
origin is an exact integer and no evaluation overflows `u64` — the subsets
with non-integral coefficients (such as `{1, 2, 4}` in scenario B) are
excluded. -/
theorem c1_reconstruction_correct {F : Type} [CommRing F] (m : F) (c : List ℕ)
    (xs : List ℕ) (hnd : xs.Nodup) (hnz : 0 ∉ xs) (hlen : c.length ≤ xs.length)
    (hint : ∀ x ∈ xs, (lagRat xs x).den = 1)
    (hov : ∀ x ∈ xs, polyVal c x < U64) (h0 : polyVal c 0 < U64) :
    aggregate_shares (xs.map (fun x => (x, ((compute_polynomial c x : ℕ) : F) * m))) =
      ((compute_polynomial c 0 : ℕ) : F) * m := by
  rw [aggregate_shares_eq_sum]
  have hfst : ((xs.map (fun x => (x, ((compute_polynomial c x : ℕ) : F) * m))).map Prod.fst)
      = xs := by
    rw [List.map_map,
      show (Prod.fst ∘ fun x : ℕ => (x, ((compute_polynomial c x : ℕ) : F) * m))
        = fun x : ℕ => x from rfl]
    exact List.map_id xs
  rw [hfst, List.map_map]
  have hcg : ∀ x ∈ xs,
      ((fun s : ℕ × F => ((ratTrunc (lagRat xs s.1) : ℤ) : F) * s.2) ∘
        (fun x => (x, ((compute_polynomial c x : ℕ) : F) * m))) x
      = (fun x : ℕ =>
          (((ratTrunc (lagRat xs x) : ℤ) : F) * ((polyVal c x : ℕ) : F)) * m) x := by
    intro x hx
    simp only [Function.comp_apply]
    rw [compute_polynomial_exact (hov x hx)]
    ring
  rw [List.map_congr_left hcg, List.sum_map_mul_right, sum_lag_ring c hnd hlen hint,
    compute_polynomial_exact h0]

theorem c1_witness :
    (∀ x ∈ [1, 2, 3], (lagRat [1, 2, 3] x).den = 1) ∧
    aggregate_shares ([1, 2, 3].map (fun x =>
      (x, ((compute_polynomial [24, 11, 12] x : ℕ) : ℚ) * 1))) =
      ((compute_polynomial [24, 11, 12] 0 : ℕ) : ℚ) * 1 := by
  have hint : ∀ x ∈ [1, 2, 3], (lagRat [1, 2, 3] x).den = 1 := by
    intro x hx
    fin_cases hx
    · rw [show lagRat [1, 2, 3] 1 = ((3 : ℤ) : ℚ) from by
        norm_num [lagRat, List.foldl_cons, List.foldl_nil]]
      exact Rat.den_intCast 3
    · rw [show lagRat [1, 2, 3] 2 = ((-3 : ℤ) : ℚ) from by
        norm_num [lagRat, List.foldl_cons, List.foldl_nil]]
      exact Rat.den_intCast (-3)
    · rw [show lagRat [1, 2, 3] 3 = ((1 : ℤ) : ℚ) from by
        norm_num [lagRat, List.foldl_cons, List.foldl_nil]]
      exact Rat.den_intCast 1
  exact ⟨hint, c1_reconstruction_correct 1 [24, 11, 12] [1, 2, 3]
    (by decide) (by decide) (by decide) hint (by decide) (by decide)⟩

/-- Claim C3 is false as stated: the signing round performs no threshold
check.  With only the two honest shares of nodes 1 and 2 submitted (over
`ℚ`, `m = 1`), both pass the filter, only `2 < 3` shares remain, and the
round still aggregates them — returning the (wrong) value `0` instead of
failing with `InsufficientShares`. -/
theorem c3_counterexample :
    filter_valid ℚ 1 [(1, (1 : ℚ) * ((47 : ℕ) : ℚ)), (2, (1 : ℚ) * ((94 : ℕ) : ℚ))] =
      [(1, (1 : ℚ) * ((47 : ℕ) : ℚ)), (2, (1 : ℚ) * ((94 : ℕ) : ℚ))] ∧
    (filter_valid ℚ 1
      [(1, (1 : ℚ) * ((47 : ℕ) : ℚ)), (2, (1 : ℚ) * ((94 : ℕ) : ℚ))]).length = 2 ∧
    sign_round ℚ 1 [(1, (1 : ℚ) * ((47 : ℕ) : ℚ)), (2, (1 : ℚ) * ((94 : ℕ) : ℚ))] = 0 ∧
    (0 : ℚ) ≠ 24 := by
  refine ⟨filter_valid_two ℚ 1, ?_, ?_, by norm_num⟩
  · rw [filter_valid_two ℚ 1]
    rfl
  · rw [sign_round, filter_valid_two ℚ 1, aggregate_shares_two ℚ 1]

/-- Claim C3 (amended): there is no `InsufficientShares` failure path in the
code.  Aggregation is performed over however many shares survive the filter:
a round submitted with only the two honest shares of nodes 1 and 2 keeps
both, and `aggregate_shares` is applied to those `2 < 3` points, producing
the value `(2·47 - 94)·M = 0` rather than an error. -/
theorem c3_no_threshold_check (F : Type) [CommRing F] [DecidableEq F] (m : F) :
    (filter_valid F m [(1, m * ((47 : ℕ) : F)), (2, m * ((94 : ℕ) : F))]).length = 2 ∧
    sign_round F m [(1, m * ((47 : ℕ) : F)), (2, m * ((94 : ℕ) : F))] =
      aggregate_shares [(1, m * ((47 : ℕ) : F)), (2, m * ((94 : ℕ) : F))] ∧
    sign_round F m [(1, m * ((47 : ℕ) : F)), (2, m * ((94 : ℕ) : F))] = 0 := by
  refine ⟨?_, ?_, ?_⟩
  · rw [filter_valid_two]
    rfl
  · rw [sign_round, filter_valid_two]
  · rw [sign_round, filter_valid_two, aggregate_shares_two]

/-- Claim C4: a signature share `(x, y'·M)` with `y' ≠ h(x)` is rejected by
the pairing check (deterministically, given `M ≠ 0`, since the pairing values
differ whenever the scalars differ); in the concrete round, 4 shares are
submitted for the threshold-3 scheme, node 4's corrupted share is the only
one excluded, exactly 3 valid shares remain, and the aggregated signature
satisfies the final pairing check against the public key. -/
theorem c4_malicious_share_rejected (F : Type) [Field F] [DecidableEq F]
    (m y' : F) (x : ℕ) (hm : m ≠ 0) (h1 : 1 ≤ x) (h5 : x ≤ 5)
    (hy : y' ≠ ((h_at x : ℕ) : F)) (h231 : (231 : F) ≠ 0) :
    share_valid F m (x, y' * m) = false ∧
    filter_valid F m (dkg_sign_shares F m) =
      [(1, m * ((47 : ℕ) : F)), (2, m * ((94 : ℕ) : F)), (3, m * ((165 : ℕ) : F))] ∧
    (filter_valid F m (dkg_sign_shares F m)).length = 3 ∧
    sign_round F m (dkg_sign_shares F m) = ((24 : ℕ) : F) * m ∧
    public_key F * m = (1 : F) * sign_round F m (dkg_sign_shares F m) := by
  refine ⟨?_, filter_valid_dkg F m hm h231, ?_, sign_round_dkg F m hm h231, ?_⟩
  · rw [share_valid]
    apply decide_eq_false
    rw [filter_yG_eq F h1 h5]
    intro hc
    have hz : (((h_at x : ℕ) : F) - y') * m = 0 := by
      linear_combination hc
    rcases mul_eq_zero.mp hz with h | h
    · exact hy (sub_eq_zero.mp h).symm
    · exact hm h
  · rw [filter_valid_dkg F m hm h231]
    rfl
  · rw [sign_round_dkg F m hm h231, public_key_eq]
    ring

theorem c4_witness :
    share_valid ℚ 1 (4, (0 : ℚ) * 1) = false ∧
    filter_valid ℚ 1 (dkg_sign_shares ℚ 1) =
      [(1, (1 : ℚ) * ((47 : ℕ) : ℚ)), (2, (1 : ℚ) * ((94 : ℕ) : ℚ)),
        (3, (1 : ℚ) * ((165 : ℕ) : ℚ))] ∧
    (filter_valid ℚ 1 (dkg_sign_shares ℚ 1)).length = 3 ∧
    sign_round ℚ 1 (dkg_sign_shares ℚ 1) = ((24 : ℕ) : ℚ) * 1 ∧
    public_key ℚ * 1 = (1 : ℚ) * sign_round ℚ 1 (dkg_sign_shares ℚ 1) :=
  c4_malicious_share_rejected ℚ 1 0 4 (by norm_num) (by norm_num) (by norm_num)
    (by rw [show h_at 4 = 260 from by decide]; norm_num) (by norm_num)

/-- Claim C7 is false as stated, because the scalar-side coefficient sum is a
wrapping `u64` addition: for `f = g = [2^63]` the summed commitment evaluates
(at `x = 0`, over `ℚ`) to `2^64`, while the commitment of the wrapped
coefficient sum `[(2^63 + 2^63) % 2^64] = [0]` evaluates to `0`. -/
theorem c7_counterexample :
    sum_coeffs [2 ^ 63] [2 ^ 63] = [0] ∧
    compute_polynomial_g (sum_commit ℚ (commit ℚ [2 ^ 63]) (commit ℚ [2 ^ 63])) 0 = 2 ^ 64 ∧
    compute_polynomial_g (commit ℚ (sum_coeffs [2 ^ 63] [2 ^ 63])) 0 = 0 ∧
    compute_polynomial_g (sum_commit ℚ (commit ℚ [2 ^ 63]) (commit ℚ [2 ^ 63])) 0 ≠
      compute_polynomial_g (commit ℚ (sum_coeffs [2 ^ 63] [2 ^ 63])) 0 := by
  have hs : sum_coeffs [2 ^ 63] [2 ^ 63] = [0] := by decide
  have h1 : compute_polynomial_g (sum_commit ℚ (commit ℚ [2 ^ 63]) (commit ℚ [2 ^ 63])) 0
      = 2 ^ 64 := by
    rw [sum_commit, commit, compute_polynomial_g]
    simp only [List.map_cons, List.map_nil, List.zipWith_cons_cons, List.zipWith_nil_right,
      List.enum, List.enumFrom, List.sum_cons, List.sum_nil]
    norm_num [U64]
  have h2 : compute_polynomial_g (commit ℚ (sum_coeffs [2 ^ 63] [2 ^ 63])) 0 = 0 := by
    rw [hs, commit, compute_polynomial_g]
    simp only [List.map_cons, List.map_nil, List.enum, List.enumFrom, List.sum_cons,
      List.sum_nil]
    norm_num
  refine ⟨hs, h1, h2, ?_⟩
  rw [h1, h2]
  norm_num

/-- Claim C7 (amended): DKG additivity of commitments holds whenever no
coefficient-wise `u64` sum overflows: for equal-length vectors with each
`a_i + b_i < 2^64`, the coefficient-wise group sum of the two commitments
evaluated at any `x` equals the commitment of the coefficient-wise (wrapped)
sum evaluated at `x`. -/
theorem c7_dkg_additivity {F : Type} [CommRing F] (f g : List ℕ) (x : ℕ)
    (hlen : f.length = g.length)
    (hb : ∀ i, i < f.length → f.getD i 0 + g.getD i 0 < U64) :
    compute_polynomial_g (sum_commit F (commit F f) (commit F g)) x =
      compute_polynomial_g (commit F (sum_coeffs f g)) x := by
  rw [compute_polynomial_g_eq_sum, compute_polynomial_g_eq_sum]
  have hl1 : (sum_commit F (commit F f) (commit F g)).length = f.length := by
    simp [sum_commit, commit, hlen]
  have hl2 : (commit F (sum_coeffs f g)).length = f.length := by
    simp [commit, sum_coeffs, hlen]
  rw [hl1, hl2]
  refine Finset.sum_congr rfl (fun i hi => ?_)
  have hif : i < f.length := Finset.mem_range.mp hi
  have hig : i < g.length := hlen ▸ hif
  congr 1
  have hi1 : i < (sum_commit F (commit F f) (commit F g)).length := by
    rw [hl1]
    exact hif
  have hi2 : i < (commit F (sum_coeffs f g)).length := by
    rw [hl2]
    exact hif
  rw [List.getD_eq_getElem _ _ hi1, List.getD_eq_getElem _ _ hi2]
  simp only [sum_commit, commit, sum_coeffs, List.getElem_zipWith, List.getElem_map]
  have hbi := hb i hif
  rw [List.getD_eq_getElem _ _ hif, List.getD_eq_getElem _ _ hig] at hbi
  rw [Nat.mod_eq_of_lt hbi]
  push_cast
  ring

theorem c7_witness :
    f_coefficients.length = g_coefficients.length ∧
    compute_polynomial_g
      (sum_commit ℚ (commit ℚ f_coefficients) (commit ℚ g_coefficients)) 2 =
      compute_polynomial_g (commit ℚ (sum_coeffs f_coefficients g_coefficients)) 2 :=
  ⟨by decide, c7_dkg_additivity f_coefficients g_coefficients 2 (by decide) (by decide)⟩

end ZkLab
